import Mathlib

/-!
Verification of the layered cheatsheet manager (`src/cheatcheat/main.py`).

The development shallowly embeds the path-string manipulation of the Python
standard library (`os.path.join`, `os.path.normpath`, `os.path.abspath`,
`os.path.splitext`, `os.path.expanduser`, `str.startswith`, `glob.glob` for
patterns of the shape `base.*`) as functions on Lean `String`s, and embeds the
filesystem as an explicit context: an ordered association list of files (the
list order models the OS directory-enumeration order seen by `glob` and
`os.walk`) plus a list of existing directories.  Characters are compared by
code point, matching Python's string ordering; `str.lower` is modelled on the
ASCII range.  All file keys in the context are canonical absolute paths; every
accessor normalises its argument, the way the OS resolves a path such as
`/g/../gg/secret` before looking it up.  Symbolic links are not modelled.
-/

namespace CheatCheat

/-- Python `s.startswith(p)`: byte-wise (here: character-wise) test. -/
def startswith (s p : String) : Bool := p.data.isPrefixOf s.data

/-- Python `s.endswith(p)`. -/
def endswith (s p : String) : Bool := p.data.isSuffixOf s.data

/-- Python `s.split('/')` on a character list: splits at every `'/'`,
keeping empty components, and is never the empty list of components. -/
def splitSlash : List Char → List (List Char)
  | [] => [[]]
  | c :: cs =>
    if c = '/' then [] :: splitSlash cs
    else
      match splitSlash cs with
      | s :: ss => (c :: s) :: ss
      | [] => [[c]]

/-- One step of `posixpath.normpath`'s component loop: drop `''` and `'.'`,
keep `'..'` at the start of a relative path or after another kept `'..'`,
otherwise let `'..'` cancel the previous component (or vanish at an absolute
root). -/
def normStep (isAbs : Bool) (acc : List (List Char)) (comp : List Char) :
    List (List Char) :=
  if comp = [] ∨ comp = ['.'] then acc
  else if comp ≠ ['.', '.'] ∨ (¬ isAbs ∧ acc = []) ∨
      (acc ≠ [] ∧ acc.getLastD [] = ['.', '.']) then acc ++ [comp]
  else if acc ≠ [] then acc.dropLast
  else acc

/-- Python `posixpath.normpath`: lexical normalisation of `.` / `..` / `//`,
with the POSIX special case of exactly two leading slashes. -/
def normpath (p : String) : String :=
  if p = "" then "." else
  let cs := p.data
  let isAbs : Bool := ['/'].isPrefixOf cs
  let root : List Char :=
    if isAbs then
      if ['/', '/'].isPrefixOf cs ∧ ¬ ['/', '/', '/'].isPrefixOf cs
      then ['/', '/'] else ['/']
    else []
  let out := (splitSlash cs).foldl (normStep isAbs) []
  let r := root ++ List.intercalate ['/'] out
  if r = [] then "." else ⟨r⟩

/-- Python `posixpath.join` restricted to two arguments: an absolute second
argument replaces the first, otherwise the pieces are glued with a single
separator. -/
def pjoin (a b : String) : String :=
  if startswith b "/" then b
  else if a = "" ∨ endswith a "/" then a ++ b
  else a ++ "/" ++ b

/-- Python `os.path.abspath`: join with the working directory, then
normalise. -/
def abspath (cwd p : String) : String := normpath (pjoin cwd p)

/-- Python `os.path.dirname`: everything before the last `'/'` (empty when
there is none); the result keeps a lone leading slash. -/
def dirname (p : String) : String :=
  let segs := splitSlash p.data
  ⟨List.intercalate ['/'] segs.dropLast⟩

/-- Extension split of a path's final component: leading dots of the base
name never start an extension (Python `posixpath.splitext` on a single
component). -/
def baseSplitext (base : List Char) : List Char × List Char :=
  let lead := base.takeWhile (· = '.')
  let rest := base.dropWhile (· = '.')
  match (rest.reverse.takeWhile (· ≠ '.')).length, rest.length with
  | k, n =>
    if k < n then (lead ++ rest.take (n - k - 1), rest.drop (n - k - 1))
    else (base, [])

/-- Python `os.path.splitext`: split the extension off the final path
component, directories untouched. -/
def splitext (p : String) : String × String :=
  let segs := splitSlash p.data
  let base := segs.getLastD []
  let dir := segs.dropLast
  let (b, e) := baseSplitext base
  (⟨List.intercalate ['/'] (dir ++ [b])⟩, ⟨e⟩)

/-- Python `os.path.expanduser` for the `~` and `~/...` forms (the `~user`
form, which consults the password database, is outside the model and left
unexpanded like a plain path). -/
def expanduser (home p : String) : String :=
  if p = "~" ∨ startswith p "~/" then
    let h : List Char := (home.data.reverse.dropWhile (· = '/')).reverse
    let r : List Char := h ++ p.data.drop 1
    if r = [] then "/" else ⟨r⟩
  else p

/-- Python whitespace set used by `str.strip`. -/
def isPySpace (c : Char) : Bool :=
  c = ' ' ∨ c = '\t' ∨ c = '\n' ∨ c = '\r' ∨ c = '\x0b' ∨ c = '\x0c'

/-- Python `str.strip`: trim whitespace from both ends. -/
def strip (s : String) : String :=
  ⟨((s.data.dropWhile isPySpace).reverse.dropWhile isPySpace).reverse⟩

/-- ASCII model of Python `str.lower`. -/
def lowerChar (c : Char) : Char :=
  if 'A' ≤ c ∧ c ≤ 'Z' then Char.ofNat (c.toNat + 32) else c

/-- Substring containment on character lists (Python `needle in hay`); an
empty needle is contained everywhere. -/
def listContains (needle : List Char) : List Char → Bool
  | [] => needle.isPrefixOf []
  | c :: cs => needle.isPrefixOf (c :: cs) || listContains needle cs

/-- Python `term.lower() in line.lower()`. -/
def containsCI (term line : String) : Bool :=
  listContains (term.data.map lowerChar) (line.data.map lowerChar)

/-- Code-point lexicographic `≤` on character lists: the order Python's
`sorted` uses on the strings at hand. -/
def lexLe : List Char → List Char → Bool
  | [], _ => true
  | _ :: _, [] => false
  | a :: as, b :: bs =>
    if a < b then true else if a = b then lexLe as bs else false

/-- Code-point lexicographic order on strings, as a proposition. -/
def strLe (a b : String) : Prop := lexLe a.data b.data = true

instance : DecidableRel strLe := fun a b => by
  unfold strLe; infer_instance

instance : IsTotal String strLe := by
  constructor
  intro sa sb
  show lexLe sa.data sb.data = true ∨ lexLe sb.data sa.data = true
  generalize sa.data = a
  generalize sb.data = b
  induction a generalizing b with
  | nil => left; rfl
  | cons x xs ih =>
    cases b with
    | nil => right; rfl
    | cons y ys =>
      rcases lt_trichotomy x y with h | h | h
      · left; simp [lexLe, h]
      · subst h
        rcases ih ys with h2 | h2
        · left; simp [lexLe, h2]
        · right; simp [lexLe, h2]
      · right; simp [lexLe, h]

instance : IsTrans String strLe := by
  constructor
  intro sa sb sc
  show lexLe sa.data sb.data = true → lexLe sb.data sc.data = true →
    lexLe sa.data sc.data = true
  generalize sa.data = a
  generalize sb.data = b
  generalize sc.data = c
  induction a generalizing b c with
  | nil => intro _ _; rfl
  | cons x xs ih =>
    intro hab hbc
    cases b with
    | nil => simp [lexLe] at hab
    | cons y ys =>
      cases c with
      | nil => simp [lexLe] at hbc
      | cons z zs =>
        rcases lt_trichotomy x y with h1 | h1 | h1
        · rcases lt_trichotomy y z with h2 | h2 | h2
          · simp [lexLe, lt_trans h1 h2]
          · subst h2; simp [lexLe, h1]
          · exfalso; simp [lexLe, not_lt_of_gt h2, ne_of_gt h2] at hbc
        · subst h1
          rcases lt_trichotomy x z with h2 | h2 | h2
          · simp [lexLe, h2]
          · subst h2
            simp [lexLe, lt_irrefl] at hab hbc ⊢
            exact ih ys zs hab hbc
          · exfalso; simp [lexLe, not_lt_of_gt h2, ne_of_gt h2] at hbc
        · exfalso; simp [lexLe, not_lt_of_gt h1, ne_of_gt h1] at hab

/-! Filesystem model -/

/-- A regular file: its text lines (as read by `readlines`, used by `search`)
and a number standing for its metadata (timestamps etc.), so that `copy2`'s
metadata-preserving copy is observable. -/
structure File where
  lines : List String
  meta : Nat
deriving DecidableEq

/-- The ambient state a run of the program observes: the working directory,
the regular files (keys are canonical absolute paths; the list order models
the directory-enumeration order the OS feeds to `glob` and `os.walk`) and the
existing directories (canonical absolute paths). -/
structure Ctx where
  cwd : String
  files : List (String × File)
  dirs : List String
deriving DecidableEq

/-- Read a file, resolving the path the way the OS does (`..` segments are
normalised away; symlinks are outside the model). -/
def getFile (ctx : Ctx) (p : String) : Option File :=
  (ctx.files.find? (fun kv => decide (kv.1 = normpath p))).map (·.2)

/-- Python `os.path.isfile`. -/
def isfile (ctx : Ctx) (p : String) : Bool := (getFile ctx p).isSome

/-- Python `os.path.isdir`. -/
def isdir (ctx : Ctx) (p : String) : Bool :=
  ctx.dirs.any (fun d => decide (d = normpath p))

/-- Does `p` match the glob pattern `t ++ ".*"`: `t`, a literal dot, then
any run of non-separator characters. -/
def matchDotStar (t p : String) : Bool :=
  startswith p (t ++ ".") && ! (p.data.drop (t.data.length + 1)).contains '/'

/-- Model of `glob.glob(t + ".*")`: every existing entry (file or directory) matching
the pattern, in enumeration order.  The model assumes `t` itself holds no
glob metacharacters, which is the case for the names exercised here. -/
def globDotStar (ctx : Ctx) (t : String) : List String :=
  (ctx.files.map (·.1) ++ ctx.dirs).filter (matchDotStar t)

/-- The files `os.walk(base)` reaches, paired with their path relative to
`base` (what `os.path.relpath(abs, base)` yields for a file strictly below
`base`).  `os.walk` descends into every subdirectory, hidden ones
included. -/
def walkFiles (ctx : Ctx) (base : String) : List (String × File) :=
  ctx.files.filterMap (fun kv =>
    if startswith kv.1 (base ++ "/") then
      some (⟨kv.1.data.drop (base.data.length + 1)⟩, kv.2)
    else none)

/-- Store a file under a canonical key, replacing any previous entry for the
same key (the OS overwrites on write). -/
def fsWrite (files : List (String × File)) (key : String) (f : File) :
    List (String × File) :=
  files.filter (fun kv => ! decide (kv.1 = key)) ++ [(key, f)]

/-- Model of `shutil.copy2(src, dst)`: byte-for-byte copy that also carries the
metadata; copying a missing source is a no-op here (the callers below only
copy files the resolver just found). -/
def copy2 (ctx : Ctx) (src dst : String) : Ctx :=
  match getFile ctx src with
  | some f => { ctx with files := fsWrite ctx.files (normpath dst) f }
  | none => ctx

/-- Model of `os.makedirs(os.path.dirname(p), exist_ok=True)`: records the target
directory as existing (the intermediate ancestors, irrelevant to every
property below, are collapsed into the one entry). -/
def makedirsFor (ctx : Ctx) (p : String) : Ctx :=
  { ctx with dirs := ctx.dirs ++ [dirname p] }

/-! Program data model -/

/-- One cheatpath dictionary `{'name', 'path', 'readonly', 'tags'}`; the
`readonly` key may be absent (`none`), which the program reads through
`entry.get('readonly', False)`. -/
structure PathEntry where
  name : String
  path : String
  readonly : Option Bool
  tags : List String
deriving DecidableEq

/-- Python `entry.get('readonly', False)`. -/
def getReadonly (e : PathEntry) : Bool := e.readonly.getD false

/-- The configuration slice the core consumes: the optional `cheatpaths`
sequence (`'cheatpaths' in config`). -/
structure Config where
  cheatpaths : Option (List PathEntry)

/-- Embedding of `get_cheatpaths` (main.py lines 29-61): expand `~` in each configured
entry's path keeping the configured order, then append the synthetic
`local` layer exactly when `<cwd>/.cheat` is an existing directory. -/
def get_cheatpaths (ctx : Ctx) (home : String) (config : Config) :
    List PathEntry :=
  let paths : List PathEntry :=
    match config.cheatpaths with
    | none => []
    | some cps =>
      cps.foldl (fun acc cp => acc ++ [{ cp with path := expanduser home cp.path }]) []
  let localCheat := pjoin ctx.cwd ".cheat"
  if isdir ctx localCheat then
    paths ++ [⟨"local", localCheat, some false, ["local"]⟩]
  else paths

/-! Resolver -/

/-- The body of `find_cheatsheet`'s per-layer loop (main.py lines 70-89):
the breakout check `abspath(target).startswith(abspath(base))`, then the
exact-file test, then the `glob(target + ".*")` fallback taking the head of
the enumeration; `none` stands for the loop's `continue`. -/
def layerMatch (ctx : Ctx) (cheatname : String) (e : PathEntry) :
    Option String :=
  let target := pjoin e.path cheatname
  if ! startswith (abspath ctx.cwd target) (abspath ctx.cwd e.path) then none
  else if isfile ctx target then some target
  else
    match globDotStar ctx target with
    | m :: _ => some m
    | [] => none

/-- The loop of `find_cheatsheet` over an already-reversed layer list. -/
def findIn (ctx : Ctx) (cheatname : String) :
    List PathEntry → Option (PathEntry × String)
  | [] => none
  | e :: rest =>
    match layerMatch ctx cheatname e with
    | some m => some (e, m)
    | none => findIn ctx cheatname rest

/-- Embedding of `find_cheatsheet` (main.py lines 63-91): scan the layers most-local
first (`reversed(paths)`) and return the first hit. -/
def find_cheatsheet (ctx : Ctx) (cheatname : String)
    (paths : List PathEntry) : Option (PathEntry × String) :=
  findIn ctx cheatname paths.reverse

/-! Aggregator -/

/-- Is the final path component hidden (starts with a dot)?  This is the
`file.startswith('.')` test applied to the base name `os.walk` yields. -/
def hiddenBase (p : String) : Bool :=
  match (splitSlash p.data).getLastD [] with
  | c :: _ => c = '.'
  | [] => false

/-- The `-l` layer filter (main.py line 99): Python's
`filter_path_name and entry.get('name') != filter_path_name`, where an
absent or empty filter is falsy and disables filtering. -/
def listSkip (filt : Option String) (e : PathEntry) : Bool :=
  match filt with
  | none => false
  | some f => ! decide (f = "") && ! decide (e.name = f)

/-- The multiset of logical names `list_cheatsheets` inserts into its set
(main.py lines 98-123): per layer, every walked non-hidden file's relative
path with one extension stripped. -/
def collectedNames (ctx : Ctx) (paths : List PathEntry)
    (filt : Option String) : List String :=
  paths.flatMap (fun e =>
    if listSkip filt e then []
    else if ! isdir ctx e.path then []
    else (walkFiles ctx e.path).filterMap (fun rf =>
      if hiddenBase rf.1 then none else some (splitext rf.1).1))

/-- Embedding of `list_cheatsheets` (main.py lines 93-127): the collected names as a set,
printed sorted — modelled as the deduplicated collection in code-point
lexicographic order. -/
def list_cheatsheets (ctx : Ctx) (paths : List PathEntry)
    (filt : Option String) : List String :=
  List.insertionSort strLe (collectedNames ctx paths filt).dedup

/-- One emitted search record `sheet:lineNo: text`. -/
structure Hit where
  sheet : String
  lineNo : Nat
  text : String
deriving DecidableEq

/-- Model of `for i, line in enumerate(lines)` filtered by the case-insensitive
containment test: the matching `(index, line)` pairs, indices starting at
`k`. -/
def hitLines (term : String) (k : Nat) : List String → List (Nat × String)
  | [] => []
  | l :: ls =>
    (if containsCI term l then [(k, l)] else []) ++ hitLines term (k + 1) ls

/-- The hits one file contributes: 1-based line numbers and stripped line
text under the extension-stripped relative name (main.py lines 143-152). -/
def fileHits (term : String) (rel : String) (f : File) : List Hit :=
  (hitLines term 0 f.lines).map (fun il =>
    ⟨(splitext rel).1, il.1 + 1, strip il.2⟩)

/-- Embedding of `search_cheatsheets` (main.py lines 129-156): walk every layer, skip
hidden base names, and emit every case-insensitive line hit in traversal
order. -/
def search_cheatsheets (ctx : Ctx) (term : String)
    (paths : List PathEntry) : List Hit :=
  paths.flatMap (fun e =>
    if ! isdir ctx e.path then []
    else (walkFiles ctx e.path).flatMap (fun rf =>
      if hiddenBase rf.1 then [] else fileHits term rf.1 rf.2))

/-! WriteRouter -/

/-- What `edit_cheatsheet` ends up doing (which path is handed to the
editor, and whether a copy-on-write happened); `noWritableLayer` stands for
the `sys.exit(1)` after "No writable cheatpath found." -/
inductive EditOutcome where
  | openedExisting : String → EditOutcome
  | copiedAndOpened : String → String → EditOutcome
  | createdNew : String → EditOutcome
  | noWritableLayer : EditOutcome
deriving DecidableEq

/-- The copy-on-write destination (main.py lines 198-204): join the target
layer root with the name, then append the original's extension unless the
result already ends with it. -/
def cowTarget (targetRoot cheatname fp : String) : String :=
  let base := pjoin targetRoot cheatname
  let ext := (splitext fp).2
  if ! decide (ext = "") && ! endswith base ext then base ++ ext else base

/-- Embedding of `edit_cheatsheet` (main.py lines 158-235): open a writable hit in
place; copy a readonly hit to the first writable layer in forward (configured
global-first) order and open the copy; create under the first writable layer
when nothing resolves; fail when no writable layer exists. -/
def edit_cheatsheet (ctx : Ctx) (cheatname : String)
    (paths : List PathEntry) : EditOutcome × Ctx :=
  match find_cheatsheet ctx cheatname paths with
  | some (e, fp) =>
    if ! getReadonly e then (.openedExisting fp, ctx)
    else
      match paths.find? (fun x => ! getReadonly x) with
      | none => (.noWritableLayer, ctx)
      | some t =>
        let dst := cowTarget t.path cheatname fp
        (.copiedAndOpened fp dst, copy2 (makedirsFor ctx dst) fp dst)
  | none =>
    match paths.find? (fun x => ! getReadonly x) with
    | none => (.noWritableLayer, ctx)
    | some t =>
      let dst := pjoin t.path cheatname
      (.createdNew dst, makedirsFor ctx dst)

/-- The same context with every file whose base name is hidden removed:
aggregation is insensitive to this deletion exactly when it ignores such
files. -/
def dropHiddenFiles (ctx : Ctx) : Ctx :=
  { ctx with files := ctx.files.filter (fun kv => ! hiddenBase kv.1) }

/-! Concrete contexts

Small worlds the theorems below are instantiated on.  Each `Ctx` lists its
files in the order the OS would enumerate them. -/

/-- A root `/g` next to a sibling `/gg` whose name extends it, and a secret
outside the root. -/
def ctxEscape : Ctx :=
  ⟨"/", [("/g/a.md", ⟨["decoy"], 0⟩), ("/gg/secret", ⟨["top secret"], 0⟩)],
   ["/g", "/gg"]⟩

def escapeLayer : PathEntry := ⟨"global", "/g", some true, []⟩

/-- The logical name `tar` present both globally and in the synthetic local
layer. -/
def ctxShadow : Ctx :=
  ⟨"/w",
   [("/g/tar.md", ⟨["global version"], 1⟩),
    ("/w/.cheat/tar.md", ⟨["local version"], 2⟩)],
   ["/g", "/w", "/w/.cheat"]⟩

def shadowGlobal : PathEntry := ⟨"global", "/g", some true, []⟩

def shadowLocal : PathEntry := ⟨"local", "/w/.cheat", some false, ["local"]⟩

/-- Sheet `tar.md` only in the readonly global layer; `/w` writable and empty. -/
def ctxCow : Ctx := ⟨"/", [("/g/tar.md", ⟨["hello"], 5⟩)], ["/g", "/w"]⟩

def cowGlobal : PathEntry := ⟨"global", "/g", some true, []⟩

def cowWork : PathEntry := ⟨"work", "/w", some false, []⟩

/-- Two extensions for the same base, enumerated with `tar.txt` before the
lexicographically smaller `tar.md`. -/
def ctxTwoExt : Ctx :=
  ⟨"/",
   [("/g/tar.txt", ⟨["text version"], 0⟩),
    ("/g/tar.md", ⟨["markdown version"], 0⟩)],
   ["/g"]⟩

def twoExtLayer : PathEntry := ⟨"global", "/g", some true, []⟩

/-- A single readonly layer and nothing writable anywhere. -/
def ctxNoWrite : Ctx := ⟨"/", [("/g/tar.md", ⟨["hello"], 0⟩)], ["/g"]⟩

def noWriteLayer : PathEntry := ⟨"global", "/g", some true, []⟩

/-- A sheet living below a hidden directory `.h`, its own base name not
hidden. -/
def ctxHiddenDir : Ctx :=
  ⟨"/", [("/g/.h/x.md", ⟨["inside hidden dir"], 0⟩)], ["/g", "/g/.h"]⟩

def hiddenDirLayer : PathEntry := ⟨"global", "/g", some true, []⟩

/-- A layer whose configuration omits the `readonly` key. -/
def ctxPlain : Ctx := ⟨"/", [("/w/tar", ⟨["plain"], 0⟩)], ["/w"]⟩

def plainEntry : PathEntry := ⟨"work", "/w", none, []⟩

/-! Helper lemmas -/

theorem splitSlash_ne_nil (l : List Char) : splitSlash l ≠ [] := by
  cases l with
  | nil => simp [splitSlash]
  | cons c cs =>
    by_cases h : c = '/'
    · simp [splitSlash, h]
    · simp only [splitSlash, if_neg h]
      cases hs : splitSlash cs <;> simp

theorem splitSlash_cons (c : Char) (cs : List Char) :
    splitSlash (c :: cs) =
      if c = '/' then [] :: splitSlash cs
      else
        match splitSlash cs with
        | s :: ss => (c :: s) :: ss
        | [] => [[c]] := rfl

theorem splitSlash_append (xs ys : List Char) :
    splitSlash (xs ++ '/' :: ys) = splitSlash xs ++ splitSlash ys := by
  induction xs with
  | nil =>
    show splitSlash ('/' :: ys) = splitSlash [] ++ splitSlash ys
    rw [splitSlash_cons, if_pos rfl]
    rfl
  | cons x xs ih =>
    show splitSlash (x :: (xs ++ '/' :: ys)) = splitSlash (x :: xs) ++ splitSlash ys
    by_cases h : x = '/'
    · rw [splitSlash_cons, if_pos h, splitSlash_cons, if_pos h, ih]
      rfl
    · obtain ⟨s, ss, hs⟩ : ∃ s ss, splitSlash xs = s :: ss := by
        cases hs : splitSlash xs with
        | nil => exact absurd hs (splitSlash_ne_nil xs)
        | cons s ss => exact ⟨s, ss, rfl⟩
      have hM : splitSlash (xs ++ '/' :: ys) = s :: (ss ++ splitSlash ys) := by
        rw [ih, hs]
        rfl
      rw [splitSlash_cons, if_neg h, hM, splitSlash_cons, if_neg h, hs]
      rfl

theorem getLastD_append_ne_nil {α : Type} (A B : List α) (d : α) (hB : B ≠ []) :
    (A ++ B).getLastD d = B.getLastD d := by
  rw [List.getLastD_eq_getLast?, List.getLastD_eq_getLast?, List.getLast?_append]
  cases hBl : B.getLast? with
  | none => exact absurd (List.getLast?_eq_none_iff.mp hBl) hB
  | some v => rfl

theorem hiddenBase_drop (base p : String) (h : startswith p (base ++ "/") = true) :
    hiddenBase ⟨p.data.drop (base.data.length + 1)⟩ = hiddenBase p := by
  unfold startswith at h
  obtain ⟨t, ht⟩ := List.isPrefixOf_iff_prefix.mp h
  have hdata : (base ++ "/").data = base.data ++ ['/'] := by
    rw [String.data_append]
  rw [hdata] at ht
  have hp : p.data = base.data ++ '/' :: t := by
    rw [← ht]; simp
  have hdrop : p.data.drop (base.data.length + 1) = t := by
    rw [hp, show base.data ++ '/' :: t = (base.data ++ ['/']) ++ t by simp,
      show base.data.length + 1 = (base.data ++ ['/']).length by simp,
      List.drop_left]
  rw [hdrop]
  show hiddenBase ⟨t⟩ = hiddenBase p
  unfold hiddenBase
  rw [show (⟨t⟩ : String).data = t from rfl, hp, splitSlash_append,
    getLastD_append_ne_nil _ _ _ (splitSlash_ne_nil t)]

theorem find?_filter_not {α : Type} (p : α → Bool) (l : List α) :
    (l.filter (fun x => ! p x)).find? p = none := by
  rw [List.find?_eq_none]
  intro x hx
  have := (List.mem_filter.mp hx).2
  simp only [Bool.not_eq_true'] at this
  simp [this]

theorem find?_filter_of_imp {α : Type} (p q : α → Bool) (l : List α)
    (h : ∀ x, p x = true → q x = true) : (l.filter q).find? p = l.find? p := by
  induction l with
  | nil => rfl
  | cons a l ih =>
    by_cases hq : q a = true
    · rw [List.filter_cons, if_pos hq]
      by_cases hp : p a = true
      · rw [List.find?_cons_of_pos _ hp, List.find?_cons_of_pos _ hp]
      · rw [List.find?_cons_of_neg _ (by simpa using hp),
          List.find?_cons_of_neg _ (by simpa using hp), ih]
    · have hp : p a = false := by
        cases hpa : p a with
        | false => rfl
        | true => exact absurd (h a hpa) hq
      rw [List.filter_cons, if_neg hq, ih,
        List.find?_cons_of_neg _ (by simp [hp])]

theorem filterMap_filter_of_none {α β : Type} (q : α → Bool) (F : α → Option β)
    (l : List α) (h : ∀ x, q x = false → F x = none) :
    (l.filter q).filterMap F = l.filterMap F := by
  induction l with
  | nil => rfl
  | cons a l ih =>
    by_cases hq : q a = true
    · rw [List.filter_cons, if_pos hq, List.filterMap_cons, List.filterMap_cons, ih]
    · have hF : F a = none := h a (by simpa using hq)
      rw [List.filter_cons, if_neg hq, List.filterMap_cons, hF, ih]

theorem flatMap_filterMap_filter {α β γ : Type} (q : α → Bool) (g : α → Option β)
    (H : β → List γ) (l : List α)
    (h : ∀ x, q x = false → ∀ y, g x = some y → H y = []) :
    ((l.filter q).filterMap g).flatMap H = (l.filterMap g).flatMap H := by
  induction l with
  | nil => rfl
  | cons a l ih =>
    by_cases hq : q a = true
    · rw [List.filter_cons, if_pos hq, List.filterMap_cons, List.filterMap_cons]
      cases hg : g a with
      | none => exact ih
      | some b => rw [List.flatMap_cons, List.flatMap_cons, ih]
    · rw [List.filter_cons, if_neg hq, List.filterMap_cons]
      cases hg : g a with
      | none => exact ih
      | some b =>
        have hH : H b = [] := h a (by simpa using hq) b hg
        rw [List.flatMap_cons, hH, List.nil_append, ih]

theorem foldl_append_map {α β : Type} (g : α → β) (l : List α) (init : List β) :
    l.foldl (fun acc x => acc ++ [g x]) init = init ++ l.map g := by
  induction l generalizing init with
  | nil => simp
  | cons x xs ih => rw [List.foldl_cons, ih]; simp

theorem findIn_mem (ctx : Ctx) (cheatname : String) (l : List PathEntry)
    (e : PathEntry) (m : String) (h : findIn ctx cheatname l = some (e, m)) :
    e ∈ l := by
  induction l with
  | nil => simp [findIn] at h
  | cons a as ih =>
    cases hm : layerMatch ctx cheatname a with
    | some v =>
      simp only [findIn, hm, Option.some.injEq, Prod.mk.injEq] at h
      rcases h with ⟨rfl, rfl⟩
      exact List.mem_cons_self a as
    | none =>
      simp only [findIn, hm] at h
      exact List.mem_cons_of_mem a (ih h)

theorem mem_hitLines (term : String) (k : Nat) (ls : List String)
    (p : Nat × String) :
    p ∈ hitLines term k ls ↔
      ∃ j, ∃ hj : j < ls.length,
        containsCI term (ls.get ⟨j, hj⟩) = true ∧ p = (k + j, ls.get ⟨j, hj⟩) := by
  induction ls generalizing k with
  | nil => simp [hitLines]
  | cons l ls ih =>
    simp only [hitLines, List.mem_append]
    constructor
    · rintro (h | h)
      · by_cases hc : containsCI term l = true
        · rw [if_pos hc] at h
          simp only [List.mem_singleton] at h
          exact ⟨0, by simp, by simpa using hc, by simpa using h⟩
        · rw [if_neg hc] at h
          simp at h
      · obtain ⟨j, hj, hcj, hp⟩ := (ih (k + 1)).mp h
        refine ⟨j + 1, by simpa using Nat.succ_lt_succ hj, ?_, ?_⟩
        · simpa using hcj
        · rw [hp]
          simp only [List.get_cons_succ]
          congr 1
          omega
    · rintro ⟨j, hj, hcj, hp⟩
      cases j with
      | zero =>
        left
        simp only [List.length_cons, List.get] at hcj hp
        rw [if_pos hcj]
        simp only [List.mem_singleton]
        simpa using hp
      | succ j' =>
        right
        apply (ih (k + 1)).mpr
        refine ⟨j', by simp only [List.length_cons] at hj; omega, ?_, ?_⟩
        · simpa [List.get_cons_succ] using hcj
        · rw [hp]
          simp only [List.get_cons_succ]
          congr 1
          omega

theorem isdir_dropHidden (ctx : Ctx) (p : String) :
    isdir (dropHiddenFiles ctx) p = isdir ctx p := rfl

theorem walk_g_hidden (base : String) (kv rf : String × File)
    (hkv : hiddenBase kv.1 = true)
    (hg : (if startswith kv.1 (base ++ "/") = true then
        some ((⟨kv.1.data.drop (base.data.length + 1)⟩ : String), kv.2)
      else none) = some rf) :
    hiddenBase rf.1 = true := by
  by_cases hs : startswith kv.1 (base ++ "/") = true
  · rw [if_pos hs] at hg
    cases hg
    rw [show ((⟨kv.1.data.drop (base.data.length + 1)⟩ : String), kv.2).1
      = (⟨kv.1.data.drop (base.data.length + 1)⟩ : String) from rfl]
    rw [hiddenBase_drop base kv.1 hs]
    exact hkv
  · rw [if_neg hs] at hg
    cases hg

theorem list_walk_dropHidden (ctx : Ctx) (base : String)
    (F : String × File → Option String)
    (hF : ∀ rf, hiddenBase rf.1 = true → F rf = none) :
    (walkFiles (dropHiddenFiles ctx) base).filterMap F
      = (walkFiles ctx base).filterMap F := by
  unfold walkFiles dropHiddenFiles
  rw [List.filterMap_filterMap, List.filterMap_filterMap]
  apply filterMap_filter_of_none
  intro kv hkv
  have hh : hiddenBase kv.1 = true := by simpa using hkv
  by_cases hs : startswith kv.1 (base ++ "/") = true
  · rw [if_pos hs, Option.some_bind]
    exact hF _ (walk_g_hidden base kv _ hh (by rw [if_pos hs]))
  · rw [if_neg hs, Option.none_bind]

theorem search_walk_dropHidden (ctx : Ctx) (base : String)
    (H : String × File → List Hit)
    (hH : ∀ rf, hiddenBase rf.1 = true → H rf = []) :
    (walkFiles (dropHiddenFiles ctx) base).flatMap H
      = (walkFiles ctx base).flatMap H := by
  unfold walkFiles dropHiddenFiles
  apply flatMap_filterMap_filter
  intro kv hkv rf hg
  exact hH rf (walk_g_hidden base kv rf (by simpa using hkv) hg)

/-! Claims -/

/-- C1: the claim says a candidate escaping the layer root is always skipped,
so `resolve` never yields a physical path outside the canonical root.  The
code checks containment with `abspath(target).startswith(abspath(base))`, a
bare string-prefix test: with root `/g`, the name `../gg/secret` normalises
to `/gg/secret`, which still has the string `/g` as a prefix, so the check
passes and the resolver returns a file outside the root — `/gg/secret` is
neither `/g` itself nor below `/g/`. -/
theorem resolve_escape_bug :
    find_cheatsheet ctxEscape "../gg/secret" [escapeLayer]
        = some (escapeLayer, "/g/../gg/secret") ∧
    normpath "/g/../gg/secret" = "/gg/secret" ∧
    startswith "/gg/secret" ("/g" ++ "/") = false ∧
    ("/gg/secret" : String) ≠ "/g" := by
  decide

/-- C2: the resolver scans `paths.reverse` (synthetic local layer first,
then configured layers in reverse configured order) and the first layer
producing a match wins outright: whenever every earlier layer of the
most-local-first order misses and layer `e` matches, the result is `e`'s
match, whatever the more global layers hold. -/
theorem resolve_local_first (ctx : Ctx) (cheatname : String)
    (paths pre post : List PathEntry) (e : PathEntry) (m : String)
    (horder : paths.reverse = pre ++ e :: post)
    (hpre : ∀ x ∈ pre, layerMatch ctx cheatname x = none)
    (hm : layerMatch ctx cheatname e = some m) :
    find_cheatsheet ctx cheatname paths = some (e, m) := by
  unfold find_cheatsheet
  rw [horder]
  clear horder
  revert hpre
  induction pre with
  | nil =>
    intro _
    simp [findIn, hm]
  | cons a as ih =>
    intro hpre
    have ha := hpre a (List.mem_cons_self a as)
    show findIn ctx cheatname (a :: (as ++ e :: post)) = some (e, m)
    simp only [findIn, ha]
    exact ih (fun x hx => hpre x (List.mem_cons_of_mem a hx))

/-- Witness for C2 on a world where `tar` exists in both the global layer
and the synthetic local layer: the local match shadows the global one. -/
theorem resolve_local_first_witness :
    layerMatch ctxShadow "tar" shadowGlobal = some "/g/tar.md" ∧
    layerMatch ctxShadow "tar" shadowLocal = some "/w/.cheat/tar.md" ∧
    find_cheatsheet ctxShadow "tar" [shadowGlobal, shadowLocal]
      = some (shadowLocal, "/w/.cheat/tar.md") :=
  ⟨by decide, by decide,
   resolve_local_first ctxShadow "tar" [shadowGlobal, shadowLocal] []
     [shadowGlobal] shadowLocal "/w/.cheat/tar.md" (by decide)
     (by intro x hx; cases hx) (by decide)⟩

/-- C5: when no writable layer exists, an edit request — whether the name
resolved into a (necessarily readonly) layer or resolved nowhere — fails
with the no-writable-layer outcome and returns the context unchanged: no
directory is created and no file is copied or created. -/
theorem edit_no_writable (ctx : Ctx) (cheatname : String)
    (paths : List PathEntry)
    (hw : paths.find? (fun x => ! getReadonly x) = none) :
    edit_cheatsheet ctx cheatname paths = (.noWritableLayer, ctx) := by
  have hall : ∀ x ∈ paths, getReadonly x = true := by
    intro x hx
    have := List.find?_eq_none.mp hw x hx
    simpa using this
  cases hfind : find_cheatsheet ctx cheatname paths with
  | none => simp [edit_cheatsheet, hfind, hw]
  | some em =>
    obtain ⟨e, fp⟩ := em
    have he : e ∈ paths :=
      List.mem_reverse.mp (findIn_mem ctx cheatname paths.reverse e fp hfind)
    have hro : getReadonly e = true := hall e he
    simp [edit_cheatsheet, hfind, hro, hw]

/-- Witness for C5: a single readonly layer, a name that resolves into it,
and a name that resolves nowhere — both edits fail without mutating
anything. -/
theorem edit_no_writable_witness :
    List.find? (fun x => ! getReadonly x) [noWriteLayer] = none ∧
    edit_cheatsheet ctxNoWrite "missing" [noWriteLayer]
      = (.noWritableLayer, ctxNoWrite) ∧
    edit_cheatsheet ctxNoWrite "tar" [noWriteLayer]
      = (.noWritableLayer, ctxNoWrite) :=
  ⟨by decide,
   edit_no_writable ctxNoWrite "missing" [noWriteLayer] (by decide),
   edit_no_writable ctxNoWrite "tar" [noWriteLayer] (by decide)⟩

/-- C9: the built path set is exactly the configured entries in configured
order with `~` expanded in each path, followed by the synthetic writable
`local` layer at `<cwd>/.cheat` (tag `local`) exactly when that directory
exists, and by nothing otherwise. -/
theorem pathset_build (ctx : Ctx) (home : String) (config : Config) :
    get_cheatpaths ctx home config =
      (config.cheatpaths.getD []).map
        (fun cp => { cp with path := expanduser home cp.path }) ++
      (if isdir ctx (pjoin ctx.cwd ".cheat") = true
       then [⟨"local", pjoin ctx.cwd ".cheat", some false, ["local"]⟩]
       else ([] : List PathEntry)) := by
  obtain ⟨cps⟩ := config
  cases cps with
  | none =>
    by_cases hd : isdir ctx (pjoin ctx.cwd ".cheat") = true
    · simp [get_cheatpaths, hd]
    · simp [get_cheatpaths, hd]
  | some l =>
    by_cases hd : isdir ctx (pjoin ctx.cwd ".cheat") = true
    · simp [get_cheatpaths, hd, foldl_append_map]
    · simp [get_cheatpaths, hd, foldl_append_map]

/-- C10: a layer whose configuration omits the `readonly` key is treated as
writable by every writability consultation: `entry.get('readonly', False)`
yields `False`; an edit of a name resolving into such a layer opens the
resolved file in place with no mutation; and the copy-on-write / create-new
target scan accepts such a layer as its first writable hit. -/
theorem readonly_omitted_writable (e : PathEntry) (h : e.readonly = none) :
    getReadonly e = false ∧
    (∀ (ctx : Ctx) (cheatname : String) (paths : List PathEntry) (fp : String),
        find_cheatsheet ctx cheatname paths = some (e, fp) →
        edit_cheatsheet ctx cheatname paths = (.openedExisting fp, ctx)) ∧
    (∀ rest : List PathEntry,
        List.find? (fun x => ! getReadonly x) (e :: rest) = some e) := by
  have hg : getReadonly e = false := by simp [getReadonly, h]
  refine ⟨hg, ?_, ?_⟩
  · intro ctx cheatname paths fp hfind
    simp [edit_cheatsheet, hfind, hg]
  · intro rest
    exact List.find?_cons_of_pos rest (by simp [hg])

/-- Witness for C10 on a layer with no `readonly` key holding `/w/tar`. -/
theorem readonly_omitted_writable_witness :
    edit_cheatsheet ctxPlain "tar" [plainEntry]
      = (.openedExisting "/w/tar", ctxPlain) ∧
    List.find? (fun x => ! getReadonly x) [plainEntry] = some plainEntry :=
  ⟨(readonly_omitted_writable plainEntry rfl).2.1 ctxPlain "tar" [plainEntry]
     "/w/tar" (by decide),
   (readonly_omitted_writable plainEntry rfl).2.2 []⟩

/-- C6: for every context, layer list and filter, the listing holds no
duplicate logical names, is sorted in code-point lexicographic order, and
holds exactly the extension-stripped relative names collected from the
walked layers. -/
theorem list_nodup_sorted (ctx : Ctx) (paths : List PathEntry)
    (filt : Option String) :
    (list_cheatsheets ctx paths filt).Nodup ∧
    (list_cheatsheets ctx paths filt).Sorted strLe ∧
    (∀ n, n ∈ list_cheatsheets ctx paths filt
        ↔ n ∈ collectedNames ctx paths filt) := by
  refine ⟨?_, ?_, ?_⟩
  · exact ((List.perm_insertionSort strLe _).nodup_iff).mpr (List.nodup_dedup _)
  · exact List.sorted_insertionSort strLe _
  · intro n
    unfold list_cheatsheets
    rw [(List.perm_insertionSort strLe _).mem_iff, List.mem_dedup]

/-- C4 counterexample: the claim says the extension fallback returns the
lexicographically first `name.*` match.  The code takes `glob.glob(...)[0]`,
the first match in the filesystem's own enumeration order: with `/g`
enumerating `tar.txt` before `tar.md`, the resolver returns `/g/tar.txt`
although `/g/tar.md` also matches and is strictly smaller
lexicographically. -/
theorem resolve_ext_not_lex :
    find_cheatsheet ctxTwoExt "tar" [twoExtLayer]
        = some (twoExtLayer, "/g/tar.txt") ∧
    matchDotStar (pjoin "/g" "tar") "/g/tar.md" = true ∧
    isfile ctxTwoExt "/g/tar.md" = true ∧
    lexLe "/g/tar.md".data "/g/tar.txt".data = true ∧
    ("/g/tar.md" : String) ≠ "/g/tar.txt" := by
  decide

/-- C4 amended: when a layer passes the breakout check, holds no exact file
for the name, and the glob for `name.*` is non-empty, the resolver returns
the first match in the filesystem's enumeration order (the head of the glob
result) — not necessarily the lexicographically first — and that result
does match `name` plus exactly one appended extension segment. -/
theorem resolve_ext_head (ctx : Ctx) (cheatname : String) (e : PathEntry)
    (m : String) (ms : List String)
    (hsec : startswith (abspath ctx.cwd (pjoin e.path cheatname))
        (abspath ctx.cwd e.path) = true)
    (hnf : isfile ctx (pjoin e.path cheatname) = false)
    (hg : globDotStar ctx (pjoin e.path cheatname) = m :: ms) :
    find_cheatsheet ctx cheatname [e] = some (e, m) ∧
    matchDotStar (pjoin e.path cheatname) m = true := by
  constructor
  · simp [find_cheatsheet, findIn, layerMatch, hsec, hnf, hg]
  · have hmem : m ∈ globDotStar ctx (pjoin e.path cheatname) := by
      rw [hg]
      exact List.mem_cons_self m ms
    unfold globDotStar at hmem
    exact (List.mem_filter.mp hmem).2

/-- Witness for the amended C4 on the two-extension world: the glob
enumerates `/g/tar.txt` first and the resolver returns it. -/
theorem resolve_ext_head_witness :
    globDotStar ctxTwoExt (pjoin "/g" "tar") = ["/g/tar.txt", "/g/tar.md"] ∧
    find_cheatsheet ctxTwoExt "tar" [twoExtLayer]
      = some (twoExtLayer, "/g/tar.txt") ∧
    matchDotStar (pjoin "/g" "tar") "/g/tar.txt" = true :=
  ⟨by decide,
   (resolve_ext_head ctxTwoExt "tar" twoExtLayer "/g/tar.txt" ["/g/tar.md"]
      (by decide) (by decide) (by decide)).1,
   (resolve_ext_head ctxTwoExt "tar" twoExtLayer "/g/tar.txt" ["/g/tar.md"]
      (by decide) (by decide) (by decide)).2⟩

/-- C7 counterexample: the claim says no file under a directory whose name
starts with `.` ever appears in the listing.  `os.walk` descends into
hidden directories and the code only skips hidden base names, so the sheet
`/g/.h/x.md` is listed as `.h/x` — a logical name inside the hidden
directory `.h`. -/
theorem hidden_dir_listed :
    hiddenBase ".h/x.md" = false ∧
    startswith "/g/.h/x.md" ("/g" ++ "/") = true ∧
    list_cheatsheets ctxHiddenDir [hiddenDirLayer] none = [".h/x"] ∧
    startswith ".h/x" "." = true := by
  decide

/-- C7 amended: only files whose own base name starts with `.` are ignored
by the aggregation operations — deleting every hidden-base-name file from
the context changes neither the listing nor any search result; files lying
under hidden directories are still walked and do contribute. -/
theorem hidden_base_ignored (ctx : Ctx) (paths : List PathEntry)
    (filt : Option String) (term : String) :
    list_cheatsheets (dropHiddenFiles ctx) paths filt
        = list_cheatsheets ctx paths filt ∧
    search_cheatsheets (dropHiddenFiles ctx) term paths
        = search_cheatsheets ctx term paths := by
  constructor
  · unfold list_cheatsheets
    congr 1
    congr 1
    unfold collectedNames
    induction paths with
    | nil => rfl
    | cons e ps ih =>
      rw [List.flatMap_cons, List.flatMap_cons, ih]
      congr 1
      by_cases hsk : listSkip filt e = true
      · rw [if_pos hsk, if_pos hsk]
      · rw [if_neg hsk, if_neg hsk, isdir_dropHidden]
        by_cases hd : isdir ctx e.path = true
        · rw [if_neg (by simp [hd]), if_neg (by simp [hd])]
          apply list_walk_dropHidden
          intro rf hrf
          rw [if_pos hrf]
        · rw [if_pos (by simp [Bool.not_eq_true] at hd ⊢; exact hd),
            if_pos (by simp [Bool.not_eq_true] at hd ⊢; exact hd)]
  · unfold search_cheatsheets
    induction paths with
    | nil => rfl
    | cons e ps ih =>
      rw [List.flatMap_cons, List.flatMap_cons, ih]
      congr 1
      rw [isdir_dropHidden]
      by_cases hd : isdir ctx e.path = true
      · rw [if_neg (by simp [hd]), if_neg (by simp [hd])]
        apply search_walk_dropHidden
        intro rf hrf
        rw [if_pos hrf]
      · rw [if_pos (by simp [Bool.not_eq_true] at hd ⊢; exact hd),
          if_pos (by simp [Bool.not_eq_true] at hd ⊢; exact hd)]

theorem find?_fsWrite (fls : List (String × File)) (k : String) (g : File) :
    (fsWrite fls k g).find? (fun kv => decide (kv.1 = k)) = some (k, g) := by
  unfold fsWrite
  rw [List.find?_append]
  have h1 : (fls.filter (fun kv => ! decide (kv.1 = k))).find?
      (fun kv => decide (kv.1 = k)) = none := by
    rw [List.find?_eq_none]
    intro x hx
    have hq := (List.mem_filter.mp hx).2
    simp only [Bool.not_eq_eq_eq_not, Bool.not_true, decide_eq_false_iff_not] at hq
    simp [hq]
  rw [h1, Option.none_or]
  exact List.find?_cons_of_pos _ (by simp)

/-- C3: editing a name that resolved to file `fp` of a readonly layer, with
`t` the first writable layer in forward (configured global-first) order,
copies `fp`'s content and metadata to the copy-on-write target (the target
root joined with the name, the original's extension appended) and opens
that copy, while the file at `fp`'s own path still reads back exactly as
before. -/
theorem edit_copy_on_write (ctx : Ctx) (cheatname : String)
    (paths : List PathEntry) (e t : PathEntry) (fp : String) (f : File)
    (hfind : find_cheatsheet ctx cheatname paths = some (e, fp))
    (hro : getReadonly e = true)
    (hw : paths.find? (fun x => ! getReadonly x) = some t)
    (hfile : getFile ctx fp = some f) :
    (edit_cheatsheet ctx cheatname paths).1
        = .copiedAndOpened fp (cowTarget t.path cheatname fp) ∧
    getFile (edit_cheatsheet ctx cheatname paths).2
        (cowTarget t.path cheatname fp) = some f ∧
    getFile (edit_cheatsheet ctx cheatname paths).2 fp = some f := by
  have hedit : edit_cheatsheet ctx cheatname paths
      = (.copiedAndOpened fp (cowTarget t.path cheatname fp),
         copy2 (makedirsFor ctx (cowTarget t.path cheatname fp)) fp
           (cowTarget t.path cheatname fp)) := by
    simp [edit_cheatsheet, hfind, hro, hw]
  set dst := cowTarget t.path cheatname fp with hdst
  have hget1 : getFile (makedirsFor ctx dst) fp = some f := hfile
  have hcopy : copy2 (makedirsFor ctx dst) fp dst
      = { ctx with
          files := fsWrite ctx.files (normpath dst) f,
          dirs := ctx.dirs ++ [dirname dst] } := by
    unfold copy2
    rw [hget1]
    rfl
  refine ⟨by rw [hedit], ?_, ?_⟩
  · rw [hedit, hcopy]
    unfold getFile
    rw [show ({ ctx with
          files := fsWrite ctx.files (normpath dst) f,
          dirs := ctx.dirs ++ [dirname dst] } : Ctx).files
        = fsWrite ctx.files (normpath dst) f from rfl]
    rw [find?_fsWrite]
    rfl
  · rw [hedit, hcopy]
    unfold getFile
    rw [show ({ ctx with
          files := fsWrite ctx.files (normpath dst) f,
          dirs := ctx.dirs ++ [dirname dst] } : Ctx).files
        = fsWrite ctx.files (normpath dst) f from rfl]
    by_cases heq : normpath fp = normpath dst
    · rw [show (fun kv : String × File => decide (kv.1 = normpath fp))
          = (fun kv : String × File => decide (kv.1 = normpath dst)) by rw [heq]]
      rw [find?_fsWrite]
      rfl
    · unfold fsWrite
      rw [List.find?_append]
      rw [find?_filter_of_imp (fun kv => decide (kv.1 = normpath fp))
        (fun kv => ! decide (kv.1 = normpath dst)) ctx.files
        (by
          intro x hx
          simp only [decide_eq_true_eq] at hx
          simp [hx, heq])]
      unfold getFile at hfile
      obtain ⟨kv, hkv, hkv2⟩ := Option.map_eq_some'.mp hfile
      rw [hkv]
      simp [Option.or, hkv2]

/-- Witness for C3 on the world where `tar.md` lives only in the readonly
global layer and `/w` is the writable target. -/
theorem edit_copy_on_write_witness :
    find_cheatsheet ctxCow "tar" [cowGlobal, cowWork]
      = some (cowGlobal, "/g/tar.md") ∧
    getReadonly cowGlobal = true ∧
    cowTarget cowWork.path "tar" "/g/tar.md" = "/w/tar.md" ∧
    (edit_cheatsheet ctxCow "tar" [cowGlobal, cowWork]).1
      = .copiedAndOpened "/g/tar.md" (cowTarget cowWork.path "tar" "/g/tar.md") ∧
    getFile (edit_cheatsheet ctxCow "tar" [cowGlobal, cowWork]).2
      (cowTarget cowWork.path "tar" "/g/tar.md") = some ⟨["hello"], 5⟩ ∧
    getFile (edit_cheatsheet ctxCow "tar" [cowGlobal, cowWork]).2 "/g/tar.md"
      = some ⟨["hello"], 5⟩ :=
  ⟨by decide, by decide, by decide,
   (edit_copy_on_write ctxCow "tar" [cowGlobal, cowWork] cowGlobal cowWork
      "/g/tar.md" ⟨["hello"], 5⟩ (by decide) (by decide) (by decide)
      (by decide)).1,
   (edit_copy_on_write ctxCow "tar" [cowGlobal, cowWork] cowGlobal cowWork
      "/g/tar.md" ⟨["hello"], 5⟩ (by decide) (by decide) (by decide)
      (by decide)).2.1,
   (edit_copy_on_write ctxCow "tar" [cowGlobal, cowWork] cowGlobal cowWork
      "/g/tar.md" ⟨["hello"], 5⟩ (by decide) (by decide) (by decide)
      (by decide)).2.2⟩

/-- C8: a record is emitted by search exactly when some walked layer holds a
non-hidden-base-name file one of whose lines contains the term
case-insensitively; the record carries the extension-stripped relative name,
the 1-based line number and the whitespace-trimmed line. -/
theorem mem_search_iff (ctx : Ctx) (term : String) (paths : List PathEntry)
    (h : Hit) :
    h ∈ search_cheatsheets ctx term paths ↔
      ∃ e ∈ paths, isdir ctx e.path = true ∧
        ∃ rf ∈ walkFiles ctx e.path, hiddenBase rf.1 = false ∧
          ∃ i, ∃ hi : i < rf.2.lines.length,
            containsCI term (rf.2.lines.get ⟨i, hi⟩) = true ∧
            h = ⟨(splitext rf.1).1, i + 1, strip (rf.2.lines.get ⟨i, hi⟩)⟩ := by
  unfold search_cheatsheets
  rw [List.mem_flatMap]
  constructor
  · rintro ⟨e, he, hmem⟩
    by_cases hd : isdir ctx e.path = true
    · rw [if_neg (by simp [hd])] at hmem
      rw [List.mem_flatMap] at hmem
      obtain ⟨rf, hrf, hmem2⟩ := hmem
      by_cases hh : hiddenBase rf.1 = true
      · rw [if_pos hh] at hmem2
        cases hmem2
      · rw [if_neg hh] at hmem2
        unfold fileHits at hmem2
        rw [List.mem_map] at hmem2
        obtain ⟨il, hil, hEq⟩ := hmem2
        obtain ⟨j, hj, hcj, hpj⟩ := (mem_hitLines term 0 rf.2.lines il).mp hil
        refine ⟨e, he, hd, rf, hrf, by simpa using hh, j, hj, hcj, ?_⟩
        rw [← hEq, hpj]
        simp
    · rw [if_pos (by simp [Bool.not_eq_true] at hd ⊢; exact hd)] at hmem
      cases hmem
  · rintro ⟨e, he, hd, rf, hrf, hh, i, hi, hc, hEq⟩
    refine ⟨e, he, ?_⟩
    rw [if_neg (by simp [hd])]
    rw [List.mem_flatMap]
    refine ⟨rf, hrf, ?_⟩
    rw [if_neg (by simp [hh])]
    unfold fileHits
    rw [List.mem_map]
    refine ⟨(i, rf.2.lines.get ⟨i, hi⟩), ?_, ?_⟩
    · exact (mem_hitLines term 0 rf.2.lines _).mpr ⟨i, hi, hc, by simp⟩
    · rw [hEq]

end CheatCheat
